import Mathlib

/-!
Verification development for the Printago folder-watch mirror
synchronization engine (printago_watch.py and the standalone
delete_empty_folders.py cleanup script).

Modelling conventions (shallow embedding):

* A remote folder path is a list of name segments (the source keys its
  `folder_cache` dictionary by the slash-joined string of exactly these
  segments; `split('/')` / `'/'.join` mediate between the two views).
* Remote folder and part identifiers are natural numbers standing for the
  opaque identifier strings of the service (assumed non-falsy, as the
  real identifiers are non-empty strings).
* The in-memory folder cache is an association list with
  first-match lookup, which matches Python dict lookup under
  assign-overwrites-by-shadowing.
* Remote calls are oracles passed in as functions; a `none` result stands
  for a raised request exception.
* The `upload_queue` is a list in enqueue order; the single worker thread
  consumes it front-first.
-/

namespace PrintagoWatch

/-- A remote folder path: the segments of the slash-joined cache key. -/
abbrev FolderPath := List String

/-- The in-memory `PrintagoClient.folder_cache`: slash-joined path ↦ folder id.
The list order of the entries also stands for the (unspecified) iteration
order of `set(self.folder_cache.keys())` in `initial_sync` step 6. -/
abbrev Cache := List (FolderPath × Nat)

/-- The keys of the folder cache. -/
def cacheKeys (c : Cache) : List FolderPath := c.map Prod.fst

/-- Operations placed on `upload_queue` (the tag strings of the source:
'upload', 'delete', 'delete_part_id', 'delete_folder_id'). -/
inductive Op where
  | upload (filePath : String)
  | deleteByPath (filePath : String)
  | deletePart (partId : Nat)
  | deleteFolder (folderId : Nat)
deriving DecidableEq

/-- The remote snapshot built in `initial_sync` steps 1-2:
`printago_map : (folder_path, part_name) ↦ part_id` plus the folder cache
loaded by `list_folders`. -/
structure RemoteSnap where
  partIndex : List ((FolderPath × String) × Nat)
  folderCache : Cache
deriving DecidableEq

/-- The local snapshot built in `initial_sync` step 3:
`local_files : (folder_path, filename_no_ext) ↦ file_path` plus
`all_local_folders`. -/
structure LocalSnap where
  fileIndex : List ((FolderPath × String) × String)
  folders : List FolderPath
deriving DecidableEq

/-- `initial_sync` steps 4 and 7: queue an upload for every local key absent
from the Printago map. -/
def toUpload (remote : RemoteSnap) (l : LocalSnap) : List Op :=
  (l.fileIndex.filter (fun kv => (List.lookup kv.1 remote.partIndex).isNone)).map
    (fun kv => Op.upload kv.2)

/-- `initial_sync` steps 5 and 8: queue a part deletion for every remote key
absent from the local files. -/
def toDeleteParts (remote : RemoteSnap) (l : LocalSnap) : List Op :=
  (remote.partIndex.filter (fun kv => (List.lookup kv.1 l.fileIndex).isNone)).map
    (fun kv => Op.deletePart kv.2)

/-- `initial_sync` steps 6 and 9: `folders_to_delete = printago_folders -
all_local_folders`, then for each such path queue `delete_folder_id` with the
cached id (the `if folder_id:` truthiness test holds for the service's
non-empty identifier strings, modelled by the `some` case of `get`).
The enumeration order of the set difference is the (unspecified) iteration
order of the underlying set, represented by the entry order of the cache. -/
def toDeleteFolders (remote : RemoteSnap) (l : LocalSnap) : List Op :=
  ((cacheKeys remote.folderCache).filter (fun p => decide (p ∉ l.folders))).filterMap
    (fun p => (List.lookup p remote.folderCache).map Op.deleteFolder)

/-- The whole reconciliation plan of `initial_sync`, in enqueue order:
uploads (step 7), then part deletions (step 8), then folder deletions
(step 9). -/
def initialSyncPlan (remote : RemoteSnap) (l : LocalSnap) : List Op :=
  toUpload remote l ++ toDeleteParts remote l ++ toDeleteFolders remote l

/-- The per-segment loop of `PrintagoClient.create_folder`: walks the parts
of the requested path, carrying `parent_id` and `current_path`; a cached
level is reused, a missing level issues one remote POST through the oracle
`api name parentId` (`none` stands for a raised request exception, which
aborts the whole call) and caches the new id under the current path.
Returns the final cache, the `current_path` of every POST issued (in call
order, a failed POST included), and the leaf id or the error. -/
def createFolderLoop (api : String → Option Nat → Option Nat) :
    Cache → Option Nat → FolderPath → List String →
      Cache × List FolderPath × Except Unit (Option Nat)
  | cache, parentId, _, [] => (cache, [], Except.ok parentId)
  | cache, parentId, cur, part :: rest =>
    match List.lookup (cur ++ [part]) cache with
    | some fid => createFolderLoop api cache (some fid) (cur ++ [part]) rest
    | none =>
      match api part parentId with
      | none => (cache, [cur ++ [part]], Except.error ())
      | some fid =>
        let r := createFolderLoop api (((cur ++ [part]), fid) :: cache) (some fid)
          (cur ++ [part]) rest
        (r.1, (cur ++ [part]) :: r.2.1, r.2.2)

/-- `PrintagoClient.create_folder`: returns the cached id when the full path
is already a key, else runs the segment loop on `folder_path.split('/')`;
any failure is re-raised as one error carrying the requested path
(`Failed to create folder '<folder_path>'`). -/
def create_folder (api : String → Option Nat → Option Nat) (cache : Cache)
    (folderPath : FolderPath) : Cache × List FolderPath × Except FolderPath (Option Nat) :=
  match List.lookup folderPath cache with
  | some fid => (cache, [], Except.ok (some fid))
  | none =>
    let r := createFolderLoop api cache none [] folderPath
    (r.1, r.2.1, r.2.2.mapError fun _ => folderPath)

/-- The cache update of `PrintagoClient.delete_folder`: keep exactly the
entries whose value differs from the deleted identifier. -/
def delete_folder_cache (folderId : Nat) (c : Cache) : Cache :=
  c.filter fun kv => kv.2 ≠ folderId

/-- The spec's FolderCache invariant: every key's nonempty proper path
prefixes (its takes strictly between the root and itself) are keys too. -/
def prefixClosed (c : Cache) : Prop :=
  ∀ p ∈ cacheKeys c, ∀ n, 0 < n → n < p.length → p.take n ∈ cacheKeys c

/-- `_upload_worker`: a single consumer draining the FIFO queue one item at a
time, front first; the trace of applied operations. -/
def workerTrace : List Op → List Op
  | [] => []
  | op :: rest => op :: workerTrace rest

/-- Filesystem events delivered to `FileWatchHandler` (`event.is_directory`,
`event.src_path`). -/
inductive FsEvent where
  | created (isDir : Bool) (srcPath : String)
  | modified (isDir : Bool) (srcPath : String)
  | deleted (isDir : Bool) (srcPath : String)
deriving DecidableEq

/-- `on_created` / `on_modified` / `on_deleted`: each enqueues one item when
the event is not a directory event and `_is_safe_path` accepts the path
(the containment check resolves against the real filesystem, so it enters
the model as the oracle `isSafe`). -/
def handleEvent (isSafe : String → Bool) : FsEvent → List Op
  | .created d p => if !d && isSafe p then [Op.upload p] else []
  | .modified d p => if !d && isSafe p then [Op.upload p] else []
  | .deleted d p => if !d && isSafe p then [Op.deleteByPath p] else []

/-- The queue items produced by a sequence of filesystem events, in enqueue
order. -/
def handleEvents (isSafe : String → Bool) (evs : List FsEvent) : List Op :=
  evs.flatMap (handleEvent isSafe)

/-- Python's greedy left-to-right `str.replace('..', '')` over the characters
of a path. -/
def removeDotDot : List Char → List Char
  | [] => []
  | [c] => [c]
  | c1 :: c2 :: rest =>
    if c1 = '.' ∧ c2 = '.' then removeDotDot rest
    else c1 :: removeDotDot (c2 :: rest)

/-- The characters stripped by `.lstrip('/\\')`. -/
def isSlashChar (c : Char) : Bool := c == '/' || c == '\\'

/-- The character substitutions of the trailing `.replace(c, '_')` chain of
`_sanitize_path` (each of < > : " | ? * becomes an underscore). -/
def replaceSpecial (c : Char) : Char :=
  if c = '<' ∨ c = '>' ∨ c = ':' ∨ c = '\"' ∨ c = '|' ∨ c = '?' ∨ c = '*' then '_' else c

/-- `PrintagoClient._sanitize_path`, step for step:
`path.replace('..','').lstrip('/\\')` followed by the underscore
substitutions. -/
def sanitize_path (p : List Char) : List Char :=
  ((removeDotDot p).dropWhile isSlashChar).map replaceSpecial

/-- Scanner for a ".." substring (two adjacent dots). -/
def hasDotDot : List Char → Bool
  | c1 :: c2 :: rest => (c1 == '.' && c2 == '.') || hasDotDot (c2 :: rest)
  | _ => false

/-- A remote part record as `delete_file` sees it: id, display name,
optional owning folder id. -/
structure PartRec where
  id : Nat
  name : String
  folderId : Option Nat
deriving DecidableEq

/-- Python `os.path.splitext(b)[0]` for a basename (no separator inside):
the extension starts at the last dot, unless every character before that
dot is itself a dot. -/
def splitextRoot (b : List Char) : List Char :=
  match ((List.range b.length).filter (fun i => b.getD i ' ' == '.')).getLast? with
  | none => b
  | some i => if (b.take i).any (fun c => c != '.') then b.take i else b

/-- `'\\'` to `'/'`, the `.replace('\\', '/')` applied to the dirname. -/
def backslashToSlash (c : Char) : Char := if c = '\\' then '/' else c

/-- `p.rfind('/') + 1` of POSIX dirname/basename (0 when no slash). -/
def afterLastSlash (p : List Char) : Nat :=
  match ((List.range p.length).filter (fun j => p.getD j ' ' == '/')).getLast? with
  | none => 0
  | some j => j + 1

/-- POSIX `os.path.dirname`: everything up to the last slash, with trailing
slashes stripped unless the head is slashes only. -/
def dirnameChars (p : List Char) : List Char :=
  let head := p.take (afterLastSlash p)
  if head ≠ [] ∧ head.any (fun c => c != '/') then
    (head.reverse.dropWhile (fun c => c == '/')).reverse
  else head

/-- POSIX `os.path.basename`: everything after the last slash. -/
def basenameChars (p : List Char) : List Char :=
  p.drop (afterLastSlash p)

/-- The part name `delete_file` derives from a relative path:
sanitize, take the basename, drop the extension. -/
def derivedPartName (relPath : List Char) : String :=
  String.mk (splitextRoot (basenameChars (sanitize_path relPath)))

/-- The folder id `delete_file` resolves: the dirname with backslashes
normalized to slashes, looked up in the folder cache when non-empty
(`if folder_path and folder_path in self.folder_cache`), else `None`.
The slash-joined string key of the Python dict corresponds to its
slash-separated segment list here. -/
def resolvedFolderId (cache : Cache) (relPath : List Char) : Option Nat :=
  let folderStr := (dirnameChars (sanitize_path relPath)).map backslashToSlash
  if folderStr ≠ [] then List.lookup ((folderStr.splitOn '/').map String.mk) cache
  else none

/-- The deletion loop of `delete_file`: walk the search response and delete
(collect the id of) every part whose name AND folder id both match. -/
def deleteMatching : List PartRec → String → Option Nat → List Nat
  | [], _, _ => []
  | p :: rest, nm, fid =>
    if p.name = nm ∧ p.folderId = fid then p.id :: deleteMatching rest nm fid
    else deleteMatching rest nm fid

/-- `PrintagoClient.delete_file`: derive name and folder id from the
relative path, search remote parts by name (the server's response enters as
the oracle `search`), delete the double matches, and report whether
anything was deleted (`deleted_count > 0`). -/
def delete_file (cache : Cache) (search : String → List PartRec)
    (relPath : List Char) : List Nat × Bool :=
  let deleted := deleteMatching (search (derivedPartName relPath))
    (derivedPartName relPath) (resolvedFolderId cache relPath)
  (deleted, decide (deleted.length > 0))

/-- `FileWatchHandler.max_file_size = 500 * 1024 * 1024`. -/
def max_file_size : Nat := 500 * 1024 * 1024

/-- What `_upload_file` logs for one queue item. -/
inductive UploadLog where
  | blockedSuspicious
  | tooLarge
  | uploaded
  | uploadFailed
deriving DecidableEq

/-- The observable outcome of `_upload_file` for one item: whether
`self.client.upload_file` was called at all, and the log line. -/
structure UploadOutcome where
  clientCalled : Bool
  log : UploadLog
deriving DecidableEq

/-- The decision chain of `FileWatchHandler._upload_file`: the path-safety
check, then the size ceiling, and only then the client call (whose
success/failure only affects the log line). -/
def upload_file_step (isSafe : Bool) (fileSize : Nat) (clientOk : Bool) : UploadOutcome :=
  if !isSafe then ⟨false, UploadLog.blockedSuspicious⟩
  else if fileSize > max_file_size then ⟨false, UploadLog.tooLarge⟩
  else ⟨true, if clientOk then UploadLog.uploaded else UploadLog.uploadFailed⟩

/-- Claim C1 (evaluation at the failing input): with remote folders
"X" (id 1) and "X/Y" (id 2), both empty and absent locally, and the set
`folders_to_delete` iterated with "X" first — an admissible iteration order,
since `initial_sync` never sorts the set — the plan enqueues
DeleteFolder(1) for the parent "X" strictly before DeleteFolder(2) for the
deeper "X/Y".  The claimed descending-depth order (present only in the
standalone delete_empty_folders.py script via to_delete.sort) is therefore
not guaranteed by the reconciliation plan. -/
theorem folder_deletes_not_depth_sorted :
    initialSyncPlan (RemoteSnap.mk [] [(["X"], 1), (["X", "Y"], 2)]) (LocalSnap.mk [] [])
      = [Op.deleteFolder 1, Op.deleteFolder 2]
    ∧ ["X"] <+: ["X", "Y"] ∧ (["X"] : FolderPath) ≠ ["X", "Y"] := by
  refine ⟨by decide, ⟨["Y"], rfl⟩, by decide⟩

/-- Claim C2: the plan contains Upload(localPath) exactly for the keys
present in the local file index and absent from the remote part index, and
DeletePart(partId) exactly for the keys present remotely and absent locally;
at the spec's concrete snapshots the plan is one upload of local "X/C.stl",
one deletion of part 2 at key ("X","B"), and no folder deletions. -/
theorem plan_upload_and_delete_exact (remote : RemoteSnap) (l : LocalSnap)
    (fp : String) (pid : Nat) :
    (Op.upload fp ∈ initialSyncPlan remote l ↔
      ∃ k, (k, fp) ∈ l.fileIndex ∧ List.lookup k remote.partIndex = none)
    ∧ (Op.deletePart pid ∈ initialSyncPlan remote l ↔
      ∃ k, (k, pid) ∈ remote.partIndex ∧ List.lookup k l.fileIndex = none)
    ∧ initialSyncPlan
        (RemoteSnap.mk [(([], "A"), 1), ((["X"], "B"), 2)] [(["X"], 7)])
        (LocalSnap.mk [(([], "A"), "A.stl"), ((["X"], "C"), "X/C.stl")] [["X"]])
      = [Op.upload "X/C.stl", Op.deletePart 2] := by
  refine ⟨?_, ?_, by decide⟩
  · simp [initialSyncPlan, toUpload, toDeleteParts, toDeleteFolders, List.mem_filter,
      Option.isNone_iff_eq_none, Option.map_eq_some', Prod.exists]
  · simp [initialSyncPlan, toUpload, toDeleteParts, toDeleteFolders, List.mem_filter,
      Option.isNone_iff_eq_none, Option.map_eq_some', Prod.exists]

/-- Claim C5: in every reconciliation pass all DeletePart operations are
enqueued before any DeleteFolder operation, and the single-consumer worker
applies the queued operations one at a time in enqueue order (its trace is
the queue itself), so any queued part deletion of the pass reaches the
remote store strictly before any folder deletion of the pass. -/
theorem part_deletes_before_folder_deletes (remote : RemoteSnap) (l : LocalSnap)
    (i j : Nat) (pid fid : Nat)
    (hi : (workerTrace (initialSyncPlan remote l))[i]? = some (Op.deletePart pid))
    (hj : (workerTrace (initialSyncPlan remote l))[j]? = some (Op.deleteFolder fid)) :
    workerTrace (initialSyncPlan remote l) = initialSyncPlan remote l ∧ i < j := by
  have htr : ∀ q : List Op, workerTrace q = q := by
    intro q
    induction q with
    | nil => rfl
    | cons a t ih => simp [workerTrace, ih]
  refine ⟨htr _, ?_⟩
  rw [htr] at hi hj
  set A := toUpload remote l with hA
  set B := toDeleteParts remote l with hB
  set C := toDeleteFolders remote l with hC
  have hAshape : ∀ x ∈ A, ∃ fp, x = Op.upload fp := by
    intro x hx
    simp [hA, toUpload] at hx
    obtain ⟨a, b, w, _, rfl⟩ := hx
    exact ⟨_, rfl⟩
  have hBshape : ∀ x ∈ B, ∃ p, x = Op.deletePart p := by
    intro x hx
    simp [hB, toDeleteParts] at hx
    obtain ⟨a, b, w, _, rfl⟩ := hx
    exact ⟨_, rfl⟩
  have hCshape : ∀ x ∈ C, ∃ f, x = Op.deleteFolder f := by
    intro x hx
    simp [hC, toDeleteFolders] at hx
    obtain ⟨a, ⟨_, _⟩, hb⟩ := hx
    obtain ⟨v, _, rfl⟩ := hb
    exact ⟨_, rfl⟩
  have hplan : initialSyncPlan remote l = (A ++ B) ++ C := by
    simp [initialSyncPlan, List.append_assoc]
  rw [hplan] at hi hj
  have hiAB : i < (A ++ B).length := by
    by_contra hge
    push_neg at hge
    rw [List.getElem?_append_right hge] at hi
    obtain ⟨hlen, he⟩ := List.getElem?_eq_some.mp hi
    have hmem : Op.deletePart pid ∈ C := he ▸ List.getElem_mem hlen
    obtain ⟨f, hf⟩ := hCshape _ hmem
    simp at hf
  have hjAB : (A ++ B).length ≤ j := by
    by_contra hlt
    push_neg at hlt
    rw [List.getElem?_append_left hlt] at hj
    obtain ⟨hlen, he⟩ := List.getElem?_eq_some.mp hj
    have hmem : Op.deleteFolder fid ∈ A ++ B := he ▸ List.getElem_mem hlen
    rcases List.mem_append.mp hmem with hma | hmb
    · obtain ⟨fp, hfp⟩ := hAshape _ hma
      simp at hfp
    · obtain ⟨p, hp⟩ := hBshape _ hmb
      simp at hp
  omega

/-- Witness for C5 at a concrete pass: one orphaned part (id 1) and one
orphaned folder (id 9); the part deletion sits at queue index 0, the folder
deletion at index 1, and 0 < 1. -/
theorem part_deletes_before_folder_deletes_holds :
    ((workerTrace (initialSyncPlan (RemoteSnap.mk [(([], "A"), 1)] [(["X"], 9)])
        (LocalSnap.mk [] [])))[0]? = some (Op.deletePart 1))
    ∧ ((workerTrace (initialSyncPlan (RemoteSnap.mk [(([], "A"), 1)] [(["X"], 9)])
        (LocalSnap.mk [] [])))[1]? = some (Op.deleteFolder 9))
    ∧ (workerTrace (initialSyncPlan (RemoteSnap.mk [(([], "A"), 1)] [(["X"], 9)])
          (LocalSnap.mk [] []))
        = initialSyncPlan (RemoteSnap.mk [(([], "A"), 1)] [(["X"], 9)]) (LocalSnap.mk [] [])
      ∧ 0 < 1) :=
  ⟨by decide, by decide,
    part_deletes_before_folder_deletes (RemoteSnap.mk [(([], "A"), 1)] [(["X"], 9)])
      (LocalSnap.mk [] []) 0 1 1 9 (by decide) (by decide)⟩

/-- Claim C7: a local rename of "A.stl" to "B.stl" in directory pA/pB is
delivered as a delete event plus a create event, which the handler turns
into exactly one delete-by-path for the old file and one upload for the new
file; equivalently, against snapshots where the remote still holds the part
at (d,"A") and the local tree holds the file at (d,"B"), the reconciliation
plan is exactly one Upload of the new file followed by one DeletePart of the
old part — never an in-place rename (the operation vocabulary of the queue
has no rename at all). -/
theorem rename_is_delete_plus_create
    (isSafe : String → Bool) (pA pB : String) (d : FolderPath) (a b : String)
    (pid : Nat) (fp : String) (cf : Cache) (lf : List FolderPath)
    (hA : isSafe pA = true) (hB : isSafe pB = true) (hab : a ≠ b)
    (hcf : ∀ p ∈ cacheKeys cf, p ∈ lf) :
    handleEvents isSafe [FsEvent.deleted false pA, FsEvent.created false pB]
        = [Op.deleteByPath pA, Op.upload pB]
    ∧ initialSyncPlan (RemoteSnap.mk [((d, a), pid)] cf) (LocalSnap.mk [((d, b), fp)] lf)
        = [Op.upload fp, Op.deletePart pid] := by
  constructor
  · simp [handleEvents, handleEvent, hA, hB]
  · have h1 : (cacheKeys cf).filter (fun p => !decide (p ∈ lf)) = [] := by
      rw [List.filter_eq_nil_iff]
      intro p hp
      simpa using hcf p hp
    have h2 : ((d, b) == (d, a)) = false := by simp [Ne.symm hab]
    have h3 : ((d, a) == (d, b)) = false := by simp [hab]
    simp [initialSyncPlan, toUpload, toDeleteParts, toDeleteFolders, h1, List.lookup,
      h2, h3]

/-- Witness for C7: the rename "A.stl" to "B.stl" inside folder "D" (part id 3,
folder id 5), with an accepting safety oracle. -/
theorem rename_is_delete_plus_create_holds :
    ((fun _ => true) "A.stl" = true) ∧ ((fun _ => true) "B.stl" = true)
    ∧ ("A" : String) ≠ "B"
    ∧ (∀ p ∈ cacheKeys [(["D"], 5)], p ∈ [["D"]])
    ∧ (handleEvents (fun _ => true) [FsEvent.deleted false "A.stl", FsEvent.created false "B.stl"]
        = [Op.deleteByPath "A.stl", Op.upload "B.stl"]
      ∧ initialSyncPlan (RemoteSnap.mk [(((["D"] : FolderPath), "A"), 3)] [(["D"], 5)])
          (LocalSnap.mk [(((["D"] : FolderPath), "B"), "D/B.stl")] [["D"]])
        = [Op.upload "D/B.stl", Op.deletePart 3]) :=
  ⟨rfl, rfl, by decide, by decide,
    rename_is_delete_plus_create (fun _ => true) "A.stl" "B.stl" ["D"] "A" "B" 3 "D/B.stl"
      [(["D"], 5)] [["D"]] rfl rfl (by decide) (by decide)⟩

theorem cfLoop_mono (api : String → Option Nat → Option Nat) (rest : List String) :
    ∀ cache pid cur c₁ calls r,
      createFolderLoop api cache pid cur rest = (c₁, calls, r) →
      ∀ q v, List.lookup q cache = some v → List.lookup q c₁ = some v := by
  induction rest with
  | nil =>
    intro cache pid cur c₁ calls r h q v hq
    simp only [createFolderLoop, Prod.mk.injEq] at h
    obtain ⟨rfl, -, -⟩ := h
    exact hq
  | cons part rest ih =>
    intro cache pid cur c₁ calls r h q v hq
    simp only [createFolderLoop] at h
    cases hl : List.lookup (cur ++ [part]) cache with
    | some fid =>
      rw [hl] at h
      exact ih _ _ _ _ _ _ h q v hq
    | none =>
      rw [hl] at h
      cases ha : api part pid with
      | none =>
        rw [ha] at h
        simp only [Prod.mk.injEq] at h
        obtain ⟨rfl, -, -⟩ := h
        exact hq
      | some fid =>
        rw [ha] at h
        simp only [Prod.mk.injEq] at h
        obtain ⟨h1, -, -⟩ := h
        have hq' : List.lookup q (((cur ++ [part]), fid) :: cache) = some v := by
          rw [List.lookup_cons]
          have hne : (q == cur ++ [part]) = false := by
            by_contra hbe
            simp only [Bool.not_eq_false, beq_iff_eq] at hbe
            rw [hbe, hl] at hq
            exact Option.noConfusion hq
          simp [hne, hq]
        subst h1
        exact ih _ _ _ _ _ _ rfl q v hq'

theorem cfLoop_calls (api : String → Option Nat → Option Nat) (rest : List String) :
    ∀ cache pid cur c₁ calls r,
      createFolderLoop api cache pid cur rest = (c₁, calls, r) →
      calls.Nodup ∧ ∀ q ∈ calls, List.lookup q cache = none ∧
        ∃ s, s ≠ [] ∧ s <+: rest ∧ q = cur ++ s := by
  induction rest with
  | nil =>
    intro cache pid cur c₁ calls r h
    simp only [createFolderLoop, Prod.mk.injEq] at h
    obtain ⟨-, rfl, -⟩ := h
    exact ⟨List.nodup_nil, by simp⟩
  | cons part rest ih =>
    intro cache pid cur c₁ calls r h
    simp only [createFolderLoop] at h
    cases hl : List.lookup (cur ++ [part]) cache with
    | some fid =>
      rw [hl] at h
      obtain ⟨hnd, hq⟩ := ih _ _ _ _ _ _ h
      refine ⟨hnd, fun q hqm => ?_⟩
      obtain ⟨hlook, s, hs, hpre, rfl⟩ := hq q hqm
      refine ⟨hlook, part :: s, by simp, ?_, (List.append_cons cur part s).symm⟩
      obtain ⟨t, ht⟩ := hpre
      exact ⟨t, by simp [← ht]⟩
    | none =>
      rw [hl] at h
      cases ha : api part pid with
      | none =>
        rw [ha] at h
        simp only [Prod.mk.injEq] at h
        obtain ⟨-, rfl, -⟩ := h
        refine ⟨List.nodup_singleton _, fun q hqm => ?_⟩
        simp only [List.mem_singleton] at hqm
        subst hqm
        exact ⟨hl, [part], by simp, ⟨rest, rfl⟩, rfl⟩
      | some fid =>
        rw [ha] at h
        simp only [Prod.mk.injEq] at h
        obtain ⟨-, rfl, -⟩ := h
        obtain ⟨hnd, hq⟩ := ih _ _ _ _ _ _
          (rfl : createFolderLoop api (((cur ++ [part]), fid) :: cache) (some fid)
            (cur ++ [part]) rest = _)
        constructor
        · refine List.nodup_cons.mpr ⟨fun hmem => ?_, hnd⟩
          obtain ⟨hlook, -⟩ := hq _ hmem
          rw [List.lookup_cons] at hlook
          simp at hlook
        · intro q hqm
          rcases List.mem_cons.mp hqm with rfl | hqt
          · exact ⟨hl, [part], by simp, ⟨rest, rfl⟩, rfl⟩
          · obtain ⟨hlook, s, hs, hpre, rfl⟩ := hq q hqt
            rw [List.lookup_cons] at hlook
            have hne : ((cur ++ [part]) ++ s == cur ++ [part]) = false := by
              simp [hs]
            rw [hne] at hlook
            refine ⟨hlook, part :: s, by simp, ?_, (List.append_cons cur part s).symm⟩
            obtain ⟨t, ht⟩ := hpre
            exact ⟨t, by simp [← ht]⟩

theorem cfLoop_ok (api : String → Option Nat → Option Nat) (rest : List String) :
    ∀ cache pid cur c₁ calls fidr,
      createFolderLoop api cache pid cur rest = (c₁, calls, Except.ok fidr) →
      rest ≠ [] →
      ∃ v, fidr = some v ∧ List.lookup (cur ++ rest) c₁ = some v := by
  induction rest with
  | nil =>
    intro cache pid cur c₁ calls fidr h hne
    exact absurd rfl hne
  | cons part rest ih =>
    intro cache pid cur c₁ calls fidr h hne
    simp only [createFolderLoop] at h
    rw [List.append_cons]
    cases hl : List.lookup (cur ++ [part]) cache with
    | some fid =>
      rw [hl] at h
      cases rest with
      | nil =>
        simp only [createFolderLoop, Prod.mk.injEq] at h
        obtain ⟨rfl, -, hr⟩ := h
        have : fidr = some fid := (Except.ok.injEq .. ▸ hr).symm
        subst this
        exact ⟨fid, rfl, by simpa using hl⟩
      | cons part2 rest2 =>
        exact ih _ _ _ _ _ _ h (by simp)
    | none =>
      rw [hl] at h
      cases ha : api part pid with
      | none =>
        rw [ha] at h
        simp only [Prod.mk.injEq] at h
        obtain ⟨-, -, hr⟩ := h
        exact absurd hr (by simp)
      | some fid =>
        rw [ha] at h
        dsimp only at h
        rcases hrec : createFolderLoop api (((cur ++ [part]), fid) :: cache) (some fid)
            (cur ++ [part]) rest with ⟨cc, cl, rr⟩
        rw [hrec] at h
        simp only [Prod.mk.injEq] at h
        obtain ⟨rfl, -, hr⟩ := h
        cases rest with
        | nil =>
          simp only [createFolderLoop, Prod.mk.injEq] at hrec
          obtain ⟨rfl, -, hrr⟩ := hrec
          rw [← hrr] at hr
          have h2 : fidr = some fid := by
            have := hr.symm
            simpa using this
          subst h2
          exact ⟨fid, rfl, by simp [List.lookup_cons]⟩
        | cons part2 rest2 =>
          subst hr
          obtain ⟨v, hv, hlook⟩ := ih _ _ _ _ _ _ hrec (by simp)
          exact ⟨v, hv, hlook⟩

theorem cfLoop_error_calls (api : String → Option Nat → Option Nat) (rest : List String) :
    ∀ cache pid cur c₁ calls,
      createFolderLoop api cache pid cur rest = (c₁, calls, Except.error ()) →
      calls ≠ [] ∧ ∀ q ∈ calls.dropLast, ∃ v, List.lookup q c₁ = some v := by
  induction rest with
  | nil =>
    intro cache pid cur c₁ calls h
    simp only [createFolderLoop, Prod.mk.injEq] at h
    exact absurd h.2.2 (by simp)
  | cons part rest ih =>
    intro cache pid cur c₁ calls h
    simp only [createFolderLoop] at h
    cases hl : List.lookup (cur ++ [part]) cache with
    | some fid =>
      rw [hl] at h
      exact ih _ _ _ _ _ h
    | none =>
      rw [hl] at h
      cases ha : api part pid with
      | none =>
        rw [ha] at h
        simp only [Prod.mk.injEq] at h
        obtain ⟨-, rfl, -⟩ := h
        exact ⟨by simp, by simp⟩
      | some fid =>
        rw [ha] at h
        dsimp only at h
        rcases hrec : createFolderLoop api (((cur ++ [part]), fid) :: cache) (some fid)
            (cur ++ [part]) rest with ⟨cc, cl, rr⟩
        rw [hrec] at h
        simp only [Prod.mk.injEq] at h
        obtain ⟨rfl, rfl, hr⟩ := h
        subst hr
        obtain ⟨hne, hdrop⟩ := ih _ _ _ _ _ hrec
        constructor
        · simp
        · rw [List.dropLast_cons_of_ne_nil hne]
          intro q hq
          rcases List.mem_cons.mp hq with rfl | hqt
          · refine ⟨fid, ?_⟩
            have hstart : List.lookup (cur ++ [part]) (((cur ++ [part]), fid) :: cache)
                = some fid := by simp [List.lookup_cons]
            exact cfLoop_mono api rest _ _ _ _ _ _ hrec _ _ hstart
          · exact hdrop q hqt

theorem lookup_some_mem_keys : ∀ (c : Cache) (q : FolderPath) (v : Nat),
    List.lookup q c = some v → q ∈ cacheKeys c := by
  intro c
  induction c with
  | nil =>
    intro q v h
    simp [List.lookup] at h
  | cons kv t ih =>
    intro q v h
    obtain ⟨k, w⟩ := kv
    rw [List.lookup_cons] at h
    by_cases hb : q = k
    · subst hb
      simp [cacheKeys]
    · have hf : (q == k) = false := by simpa using hb
      rw [hf] at h
      simp only [cacheKeys, List.map_cons, List.mem_cons]
      exact Or.inr (ih q v h)

theorem cfLoop_closed (api : String → Option Nat → Option Nat) (rest : List String) :
    ∀ cache pid cur c₁ calls r,
      createFolderLoop api cache pid cur rest = (c₁, calls, r) →
      prefixClosed cache →
      (∀ n, 0 < n → n ≤ cur.length → cur.take n ∈ cacheKeys cache) →
      prefixClosed c₁
      ∧ (∀ fidr, r = Except.ok fidr → ∀ n, 0 < n → n ≤ (cur ++ rest).length →
          (cur ++ rest).take n ∈ cacheKeys c₁) := by
  induction rest with
  | nil =>
    intro cache pid cur c₁ calls r h hcl hstk
    simp only [createFolderLoop, Prod.mk.injEq] at h
    obtain ⟨rfl, -, -⟩ := h
    exact ⟨hcl, fun _ _ n h1 h2 => by simpa using hstk n h1 (by simpa using h2)⟩
  | cons part rest ih =>
    intro cache pid cur c₁ calls r h hcl hstk
    simp only [createFolderLoop] at h
    have hcur : ∀ n, 0 < n → n ≤ cur.length → (cur ++ [part]).take n ∈ cacheKeys cache := by
      intro n h1 h2
      rw [List.take_append_of_le_length h2]
      exact hstk n h1 h2
    cases hl : List.lookup (cur ++ [part]) cache with
    | some fid =>
      rw [hl] at h
      have hmemk : (cur ++ [part]) ∈ cacheKeys cache := lookup_some_mem_keys _ _ _ hl
      have hstk' : ∀ n, 0 < n → n ≤ (cur ++ [part]).length →
          (cur ++ [part]).take n ∈ cacheKeys cache := by
        intro n h1 h2
        rcases Nat.lt_or_ge n (cur ++ [part]).length with hlt | hge
        · have : n ≤ cur.length := by simpa using Nat.lt_succ_iff.mp (by simpa using hlt)
          exact hcur n h1 this
        · have : n = (cur ++ [part]).length := le_antisymm h2 hge
          rw [this, List.take_length]
          exact hmemk
      obtain ⟨hc1, hok⟩ := ih _ _ _ _ _ _ h hcl hstk'
      refine ⟨hc1, fun fidr hr n h1 h2 => ?_⟩
      rw [List.append_cons] at h2 ⊢
      exact hok fidr hr n h1 h2
    | none =>
      rw [hl] at h
      cases ha : api part pid with
      | none =>
        rw [ha] at h
        simp only [Prod.mk.injEq] at h
        obtain ⟨rfl, -, hr⟩ := h
        refine ⟨hcl, fun fidr hfr => ?_⟩
        rw [← hr] at hfr
        exact absurd hfr (by simp)
      | some fid =>
        rw [ha] at h
        dsimp only at h
        rcases hrec : createFolderLoop api (((cur ++ [part]), fid) :: cache) (some fid)
            (cur ++ [part]) rest with ⟨cc, cl, rr⟩
        rw [hrec] at h
        simp only [Prod.mk.injEq] at h
        obtain ⟨rfl, rfl, rfl⟩ := h
        have hclosed' : prefixClosed (((cur ++ [part]), fid) :: cache) := by
          intro p hp n h1 h2
          simp only [cacheKeys, List.map_cons, List.mem_cons] at hp
          rcases hp with rfl | hp
          · have hlen : n ≤ cur.length := by
              have := h2
              simp only [List.length_append, List.length_cons, List.length_nil] at this
              omega
            have := hcur n h1 hlen
            simp only [cacheKeys] at this ⊢
            exact List.mem_cons_of_mem _ this
          · have := hcl p (by simpa [cacheKeys] using hp) n h1 h2
            simp only [cacheKeys] at this ⊢
            exact List.mem_cons_of_mem _ this
        have hstk' : ∀ n, 0 < n → n ≤ (cur ++ [part]).length →
            (cur ++ [part]).take n ∈ cacheKeys (((cur ++ [part]), fid) :: cache) := by
          intro n h1 h2
          rcases Nat.lt_or_ge n (cur ++ [part]).length with hlt | hge
          · have hlen : n ≤ cur.length := by
              simp only [List.length_append, List.length_cons, List.length_nil] at hlt
              omega
            have := hcur n h1 hlen
            simp only [cacheKeys] at this ⊢
            exact List.mem_cons_of_mem _ this
          · have heq : n = (cur ++ [part]).length := le_antisymm h2 hge
            rw [heq, List.take_length]
            simp [cacheKeys]
        obtain ⟨hc1, hok⟩ := ih _ _ _ _ _ _ hrec hclosed' hstk'
        refine ⟨hc1, fun fidr hr n h1 h2 => ?_⟩
        rw [List.append_cons] at h2 ⊢
        exact hok fidr hr n h1 h2

/-- Claim C4: when `create_folder` (ensure) succeeds on a path P, it has
issued at most one remote creation call per missing level of P (its call
list is duplicate-free and contains only nonempty prefixes of P that were
absent from the cache), and calling it again immediately performs no remote
creation call, leaves the cache untouched, and returns the same leaf
identifier. -/
theorem ensure_idempotent (api : String → Option Nat → Option Nat)
    (cache : Cache) (P : FolderPath) (c₁ : Cache) (calls₁ : List FolderPath)
    (fid : Option Nat)
    (h : create_folder api cache P = (c₁, calls₁, Except.ok fid)) :
    create_folder api c₁ P = (c₁, [], Except.ok fid)
    ∧ calls₁.Nodup
    ∧ ∀ q ∈ calls₁, List.lookup q cache = none ∧ q ≠ [] ∧ q <+: P := by
  unfold create_folder at h
  cases hl : List.lookup P cache with
  | some f =>
    rw [hl] at h
    simp only [Prod.mk.injEq] at h
    obtain ⟨rfl, rfl, hr⟩ := h
    have hf : fid = some f := by simpa using hr.symm
    subst hf
    refine ⟨?_, List.nodup_nil, by simp⟩
    unfold create_folder
    rw [hl]
  | none =>
    rw [hl] at h
    dsimp only at h
    rcases hrec : createFolderLoop api cache none [] P with ⟨cc, cl, rr⟩
    rw [hrec] at h
    simp only [Prod.mk.injEq] at h
    obtain ⟨rfl, rfl, hr⟩ := h
    have hrr : rr = Except.ok fid := by
      cases rr with
      | ok x => simpa [Except.mapError] using hr
      | error e => simp [Except.mapError] at hr
    subst hrr
    obtain ⟨hnd, hcallsq⟩ := cfLoop_calls api P cache none [] cc cl _ hrec
    refine ⟨?_, hnd, ?_⟩
    · cases P with
      | nil =>
        simp only [createFolderLoop, Prod.mk.injEq] at hrec
        obtain ⟨rfl, -, hfid⟩ := hrec
        have : fid = none := by simpa using hfid.symm
        subst this
        unfold create_folder
        rw [hl]
        rfl
      | cons p ps =>
        obtain ⟨v, hv, hlook⟩ := cfLoop_ok api (p :: ps) cache none [] cc cl fid hrec (by simp)
        subst hv
        unfold create_folder
        rw [show List.lookup (p :: ps) cc = some v from by simpa using hlook]
    · intro q hq
      obtain ⟨hlook, s, hs, hpre, hqs⟩ := hcallsq q hq
      simp only [List.nil_append] at hqs
      subst hqs
      exact ⟨hlook, hs, hpre⟩

/-- Claim C8: when remote folder creation fails at some level,
`create_folder` fails with an error carrying the requested path, every
cache entry present before the call survives (no rollback), at least one
creation call was attempted, every successfully created ancestor level (all
attempted calls but the failing last one) is cached afterwards, and a retry
of the same path issues creation calls only for levels still missing from
the post-failure cache — never for the surviving ancestors. -/
theorem ensure_failure_no_rollback (api : String → Option Nat → Option Nat)
    (cache : Cache) (P : FolderPath) (c₁ : Cache) (calls₁ : List FolderPath)
    (e : FolderPath)
    (h : create_folder api cache P = (c₁, calls₁, Except.error e)) :
    e = P
    ∧ (∀ q v, List.lookup q cache = some v → List.lookup q c₁ = some v)
    ∧ calls₁ ≠ []
    ∧ (∀ q ∈ calls₁.dropLast, ∃ v, List.lookup q c₁ = some v)
    ∧ (∀ c₂ calls₂ r, create_folder api c₁ P = (c₂, calls₂, r) →
        ∀ q ∈ calls₂, List.lookup q c₁ = none) := by
  unfold create_folder at h
  cases hl : List.lookup P cache with
  | some f =>
    rw [hl] at h
    simp at h
  | none =>
    rw [hl] at h
    dsimp only at h
    rcases hrec : createFolderLoop api cache none [] P with ⟨cc, cl, rr⟩
    rw [hrec] at h
    simp only [Prod.mk.injEq] at h
    obtain ⟨rfl, rfl, hr⟩ := h
    have hrr : rr = Except.error () := by
      cases rr with
      | ok x => simp [Except.mapError] at hr
      | error u => cases u; rfl
    have hre : e = P := by
      subst hrr
      simpa [Except.mapError] using hr.symm
    subst hrr
    obtain ⟨hne, hdrop⟩ := cfLoop_error_calls api P cache none [] cc cl hrec
    refine ⟨hre, fun q v hq => cfLoop_mono api P cache none [] cc cl _ hrec q v hq,
      hne, hdrop, ?_⟩
    intro c₂ calls₂ r h₂
    unfold create_folder at h₂
    cases hl₂ : List.lookup P cc with
    | some f =>
      rw [hl₂] at h₂
      simp only [Prod.mk.injEq] at h₂
      obtain ⟨-, hcl₂, -⟩ := h₂
      rw [← hcl₂]
      simp
    | none =>
      rw [hl₂] at h₂
      dsimp only at h₂
      rcases hrec₂ : createFolderLoop api cc none [] P with ⟨dd, dl, ss⟩
      rw [hrec₂] at h₂
      simp only [Prod.mk.injEq] at h₂
      obtain ⟨-, hcl₂, -⟩ := h₂
      obtain ⟨-, hq₂⟩ := cfLoop_calls api P cc none [] dd dl _ hrec₂
      intro q hq
      rw [← hcl₂] at hq
      exact (hq₂ q hq).1

/-- Claim C3 (amended): prefix closure of the FolderCache is preserved by
`create_folder` (on success and on failure alike), and after a successful
`create_folder` on P every nonempty proper prefix of P is a key; the cache
update of `delete_folder` preserves prefix closure when no surviving key
strictly extends a removed key (for example when the deleted folder is a
leaf), but — see the counterexample — not in general. -/
theorem prefixClosed_invariant (api : String → Option Nat → Option Nat)
    (cache : Cache) (P : FolderPath) (fidDel : Nat)
    (hc : prefixClosed cache)
    (hleaf : ∀ p₁ p₂ v₂, (p₁, fidDel) ∈ cache → (p₂, v₂) ∈ cache → v₂ ≠ fidDel →
        p₁ <+: p₂ → p₁ = p₂) :
    prefixClosed (create_folder api cache P).1
    ∧ (∀ c₁ calls fid, create_folder api cache P = (c₁, calls, Except.ok fid) →
        ∀ n, 0 < n → n < P.length → P.take n ∈ cacheKeys c₁)
    ∧ prefixClosed (delete_folder_cache fidDel cache) := by
  refine ⟨?_, ?_, ?_⟩
  · unfold create_folder
    cases hl : List.lookup P cache with
    | some f => exact hc
    | none =>
      rcases hrec : createFolderLoop api cache none [] P with ⟨cc, cl, rr⟩
      exact (cfLoop_closed api P cache none [] cc cl rr hrec hc
        (by intro n h1 h2; simp at h2; omega)).1
  · intro c₁ calls fid h
    unfold create_folder at h
    cases hl : List.lookup P cache with
    | some f =>
      rw [hl] at h
      simp only [Prod.mk.injEq] at h
      obtain ⟨rfl, -, -⟩ := h
      intro n h1 h2
      exact hc P (lookup_some_mem_keys _ _ _ hl) n h1 h2
    | none =>
      rw [hl] at h
      dsimp only at h
      rcases hrec : createFolderLoop api cache none [] P with ⟨cc, cl, rr⟩
      rw [hrec] at h
      simp only [Prod.mk.injEq] at h
      obtain ⟨rfl, -, hr⟩ := h
      have hall := (cfLoop_closed api P cache none [] cc cl rr hrec hc
        (by intro n h1 h2; simp at h2; omega)).2
      have hok : ∃ fidr, rr = Except.ok fidr := by
        cases rr with
        | ok x => exact ⟨x, rfl⟩
        | error u => simp [Except.mapError] at hr
      obtain ⟨fidr, rfl⟩ := hok
      intro n h1 h2
      have := hall fidr rfl n h1 (by simpa using Nat.le_of_lt h2)
      simpa using this
  · intro p hp n h1 h2
    simp only [delete_folder_cache, cacheKeys] at hp
    obtain ⟨kv, hkvmem, rfl⟩ := List.mem_map.mp hp
    have hkv := List.mem_filter.mp hkvmem
    have hv : kv.2 ≠ fidDel := by simpa using hkv.2
    have hkey : kv.1.take n ∈ cacheKeys cache :=
      hc kv.1 (List.mem_map_of_mem _ hkv.1) n h1 h2
    obtain ⟨kw, hkwmem, hkweq⟩ := List.mem_map.mp hkey
    by_cases hw : kw.2 = fidDel
    · exfalso
      have hwin : (kw.1, fidDel) ∈ cache := by
        rw [← hw]
        simpa using hkwmem
      have hpre : kw.1 <+: kv.1 :=
        ⟨kv.1.drop n, by rw [hkweq]; exact List.take_append_drop n kv.1⟩
      have heq := hleaf kw.1 kv.1 kv.2 hwin (by simpa using hkv.1) hv hpre
      have hlen := congrArg List.length (heq.symm.trans hkweq)
      simp only [List.length_take] at hlen
      omega
    · exact List.mem_map.mpr ⟨kw,
        List.mem_filter.mpr ⟨hkwmem, by simpa using hw⟩, hkweq⟩

/-- Counterexample to claim C3 as stated: the cache {"X" ↦ 1, "X/Y" ↦ 2}
is prefix-closed, yet deleting folder id 1 (the parent "X") leaves
{"X/Y" ↦ 2}, whose key "X/Y" has the absent proper prefix "X" — the
identifier-filtering deletion does not preserve the invariant. -/
theorem delete_folder_breaks_closure :
    prefixClosed [(["X"], 1), (["X", "Y"], 2)]
    ∧ delete_folder_cache 1 [(["X"], 1), (["X", "Y"], 2)] = [(["X", "Y"], 2)]
    ∧ ¬ prefixClosed [(["X", "Y"], 2)] := by
  refine ⟨?_, by rfl, ?_⟩
  · intro p hp n h1 h2
    simp only [cacheKeys, List.map_cons, List.map_nil, List.mem_cons,
      List.not_mem_nil, or_false] at hp
    rcases hp with rfl | rfl
    · simp at h2
      omega
    · have : n = 1 := by
        simp at h2
        omega
      subst this
      simp [cacheKeys]
  · intro hcl
    have := hcl ["X", "Y"] (by simp [cacheKeys]) 1 (by omega) (by simp)
    simp [cacheKeys] at this

/-- Witness for C4: creating "A/B" from an empty cache with an
always-succeeding remote issues the two calls "A", "A/B" once each, and the
repeat call is a pure cache hit with the same leaf id 5. -/
theorem ensure_idempotent_holds :
    create_folder (fun _ _ => some 5) [] ["A", "B"]
        = ([(["A", "B"], 5), (["A"], 5)], [["A"], ["A", "B"]], Except.ok (some 5))
    ∧ (create_folder (fun _ _ => some 5) [(["A", "B"], 5), (["A"], 5)] ["A", "B"]
        = ([(["A", "B"], 5), (["A"], 5)], [], Except.ok (some 5))
      ∧ ([["A"], ["A", "B"]] : List FolderPath).Nodup
      ∧ ∀ q ∈ ([["A"], ["A", "B"]] : List FolderPath),
          List.lookup q ([] : Cache) = none ∧ q ≠ [] ∧ q <+: ["A", "B"]) :=
  ⟨rfl, ensure_idempotent (fun _ _ => some 5) [] ["A", "B"]
    [(["A", "B"], 5), (["A"], 5)] [["A"], ["A", "B"]] (some 5) rfl⟩

/-- Witness for C8: a remote that rejects the segment "B" makes
`create_folder [] ["A","B"]` fail with the requested path, while the
created ancestor "A" (id 1) stays cached for the retry. -/
theorem ensure_failure_no_rollback_holds :
    create_folder (fun nm _ => if nm = "B" then none else some 1) [] ["A", "B"]
        = ([(["A"], 1)], [["A"], ["A", "B"]], Except.error ["A", "B"])
    ∧ (["A", "B"] = (["A", "B"] : FolderPath)
      ∧ (∀ q v, List.lookup q ([] : Cache) = some v → List.lookup q [(["A"], 1)] = some v)
      ∧ ([["A"], ["A", "B"]] : List FolderPath) ≠ []
      ∧ (∀ q ∈ ([["A"], ["A", "B"]] : List FolderPath).dropLast,
          ∃ v, List.lookup q [(["A"], 1)] = some v)
      ∧ (∀ c₂ calls₂ r,
          create_folder (fun nm _ => if nm = "B" then none else some 1) [(["A"], 1)] ["A", "B"]
            = (c₂, calls₂, r) →
          ∀ q ∈ calls₂, List.lookup q [(["A"], 1)] = none)) :=
  ⟨rfl, ensure_failure_no_rollback (fun nm _ => if nm = "B" then none else some 1)
    [] ["A", "B"] [(["A"], 1)] [["A"], ["A", "B"]] ["A", "B"] rfl⟩

/-- Witness for C3 (amended): from the empty (vacuously prefix-closed)
cache, creating "A/B" yields a prefix-closed cache with "A" present, and
the deletion filter preserves closure there. -/
theorem prefixClosed_invariant_holds :
    prefixClosed ([] : Cache)
    ∧ (prefixClosed (create_folder (fun _ _ => some 5) [] ["A", "B"]).1
      ∧ (∀ c₁ calls fid,
          create_folder (fun _ _ => some 5) [] ["A", "B"] = (c₁, calls, Except.ok fid) →
          ∀ n, 0 < n → n < (["A", "B"] : FolderPath).length →
            (["A", "B"] : FolderPath).take n ∈ cacheKeys c₁)
      ∧ prefixClosed (delete_folder_cache 0 ([] : Cache))) :=
  ⟨by simp [prefixClosed, cacheKeys],
    prefixClosed_invariant (fun _ _ => some 5) [] ["A", "B"] 0
      (by simp [prefixClosed, cacheKeys]) (by simp)⟩

/-- The deletion loop collects exactly the ids of the double matches. -/
theorem deleteMatching_eq_filter (parts : List PartRec) (nm : String) (fid : Option Nat) :
    deleteMatching parts nm fid
      = (parts.filter (fun p => decide (p.name = nm ∧ p.folderId = fid))).map PartRec.id := by
  induction parts with
  | nil => rfl
  | cons p rest ih =>
    by_cases hp : p.name = nm ∧ p.folderId = fid
    · simp [deleteMatching, hp, ih]
    · simp [deleteMatching, hp, ih]

/-- Unfolding of the double-dot scanner over a cons cell. -/
theorem hdd_cons (a : Char) (l : List Char) :
    hasDotDot (a :: l) = (((a == '.') && (l.head? == some '.')) || hasDotDot l) := by
  cases l with
  | nil => simp [hasDotDot]
  | cons b rest => simp [hasDotDot]

/-- Replacement keeps a non-dot head in place. -/
theorem head_removeDotDot (c : Char) (rest : List Char) (hc : c ≠ '.') :
    (removeDotDot (c :: rest)).head? = some c := by
  cases rest with
  | nil => rfl
  | cons d t =>
    rw [removeDotDot]
    rw [if_neg (by intro hand; exact hc hand.1)]
    rfl

/-- After the greedy replacement, no two dots are adjacent. -/
theorem noadj_removeDotDot (l : List Char) : hasDotDot (removeDotDot l) = false := by
  induction l using removeDotDot.induct with
  | case1 => rfl
  | case2 c => rfl
  | case3 c1 c2 rest hand ih =>
    rw [removeDotDot, if_pos hand]
    exact ih
  | case4 c1 c2 rest hand ih =>
    rw [removeDotDot, if_neg hand, hdd_cons]
    rw [ih]
    by_cases hc1 : c1 = '.'
    · have hc2 : c2 ≠ '.' := fun hc2 => hand ⟨hc1, hc2⟩
      rw [head_removeDotDot c2 rest hc2]
      simp [hc2]
    · simp [hc1]

/-- Dropping a prefix cannot create adjacent dots. -/
theorem hddF_dropWhile (p : Char → Bool) : ∀ l : List Char,
    hasDotDot l = false → hasDotDot (l.dropWhile p) = false := by
  intro l
  induction l with
  | nil => intro h; simpa using h
  | cons a t ih =>
    intro h
    rw [hdd_cons] at h
    have ht : hasDotDot t = false := by
      rcases Bool.or_eq_false_iff.mp h with ⟨-, h2⟩
      exact h2
    rw [List.dropWhile_cons]
    by_cases hpa : p a = true
    · rw [if_pos hpa]
      exact ih ht
    · rw [if_neg hpa]
      rw [hdd_cons, ht]
      rcases Bool.or_eq_false_iff.mp h with ⟨h1, -⟩
      rw [h1]
      rfl

/-- A character map that only ever produces a dot from a dot cannot create
adjacent dots. -/
theorem hddF_map (f : Char → Char) (hf : ∀ c, f c = '.' → c = '.') : ∀ l : List Char,
    hasDotDot l = false → hasDotDot (l.map f) = false := by
  intro l
  induction l with
  | nil => intro h; simpa using h
  | cons a t ih =>
    intro h
    rw [hdd_cons] at h
    rcases Bool.or_eq_false_iff.mp h with ⟨h1, h2⟩
    rw [List.map_cons, hdd_cons, ih h2]
    cases t with
    | nil => simp
    | cons b r =>
      simp only [List.map_cons, List.head?_cons, Bool.or_false]
      by_cases hfa : f a = '.'
      · by_cases hfb : f b = '.'
        · exfalso
          have ha := hf a hfa
          have hb := hf b hfb
          rw [ha, hb] at h1
          simp at h1
        · simp [hfb]
      · simp [hfa]

/-- Whatever survives dropWhile at the head fails the predicate. -/
theorem head_dropWhile_false (p : Char → Bool) : ∀ (l : List Char) (c : Char),
    (l.dropWhile p).head? = some c → p c = false := by
  intro l
  induction l with
  | nil =>
    intro c h
    simp [List.dropWhile] at h
  | cons a t ih =>
    intro c h
    rw [List.dropWhile_cons] at h
    by_cases hpa : p a = true
    · rw [if_pos hpa] at h
      exact ih c h
    · rw [if_neg hpa] at h
      simp only [List.head?_cons, Option.some.injEq] at h
      subst h
      exact Bool.not_eq_true _ ▸ (by simpa using hpa)

/-- The underscore substitution never produces a dot from a non-dot. -/
theorem replaceSpecial_dot (c : Char) (h : replaceSpecial c = '.') : c = '.' := by
  unfold replaceSpecial at h
  split at h
  · exact absurd h (by decide)
  · exact h

/-- Claim C10: for every input, `_sanitize_path` returns a character
sequence with no ".." substring and no leading '/' or '\\', so a relative
path derived from it cannot name a parent directory or an absolute
location. -/
theorem sanitize_no_dotdot_no_leading_slash (p : List Char) :
    hasDotDot (sanitize_path p) = false
    ∧ ∀ c, (sanitize_path p).head? = some c → c ≠ '/' ∧ c ≠ '\\' := by
  constructor
  · exact hddF_map replaceSpecial replaceSpecial_dot _
      (hddF_dropWhile isSlashChar _ (noadj_removeDotDot p))
  · intro c hc
    have hmap : ((removeDotDot p).dropWhile isSlashChar).head?.map replaceSpecial
        = some c := by
      simpa [sanitize_path, List.head?_map] using hc
    obtain ⟨d, hd, hdc⟩ := Option.map_eq_some'.mp hmap
    have hds : isSlashChar d = false := head_dropWhile_false isSlashChar _ d hd
    have hdslash : d ≠ '/' ∧ d ≠ '\\' := by
      constructor <;> intro heq <;> rw [heq] at hds <;> simp [isSlashChar] at hds
    subst hdc
    constructor <;> intro heq <;> unfold replaceSpecial at heq <;> split at heq
    · exact absurd heq (by decide)
    · exact hdslash.1 heq
    · exact absurd heq (by decide)
    · exact hdslash.2 heq

/-- Witness for C10 at a traversal-shaped input. -/
theorem sanitize_no_dotdot_no_leading_slash_holds :
    hasDotDot (sanitize_path ("../<x>/\\..y".data)) = false
    ∧ ∀ c, (sanitize_path ("../<x>/\\..y".data)).head? = some c → c ≠ '/' ∧ c ≠ '\\' :=
  sanitize_no_dotdot_no_leading_slash ("../<x>/\\..y".data)

/-- Claim C6: `delete_file` deletes exactly the searched parts whose display
name equals the derived base-name without extension AND whose folder id
equals the identifier resolved from the cache (`none` when the folder path
is empty or uncached); every deleted id belongs to a part matching both, so
a part sharing the name under a different folder identifier is never
deleted. -/
theorem delete_file_exact_match (cache : Cache) (search : String → List PartRec)
    (relPath : List Char) :
    (delete_file cache search relPath).1
      = ((search (derivedPartName relPath)).filter
          (fun p => decide (p.name = derivedPartName relPath
            ∧ p.folderId = resolvedFolderId cache relPath))).map PartRec.id
    ∧ ∀ i ∈ (delete_file cache search relPath).1,
        ∃ p ∈ search (derivedPartName relPath),
          p.id = i ∧ p.name = derivedPartName relPath
          ∧ p.folderId = resolvedFolderId cache relPath := by
  have he : (delete_file cache search relPath).1
      = deleteMatching (search (derivedPartName relPath)) (derivedPartName relPath)
        (resolvedFolderId cache relPath) := rfl
  rw [he, deleteMatching_eq_filter]
  refine ⟨rfl, ?_⟩
  intro i hi
  simp only [List.mem_map, List.mem_filter] at hi
  obtain ⟨q, ⟨hqmem, hqprop⟩, hqid⟩ := hi
  have := of_decide_eq_true hqprop
  exact ⟨q, hqmem, hqid, this.1, this.2⟩

/-- Witness for C6: of three searched parts, only the one matching both the
derived name "letter-A" and the cached folder id 4 is deleted; the
same-named part in folder 9 survives. -/
theorem delete_file_exact_match_holds :
    delete_file [(["KeyChains"], 4)]
      (fun _ => [PartRec.mk 10 "letter-A" (some 4), PartRec.mk 11 "letter-A" (some 9),
        PartRec.mk 12 "other" (some 4)])
      ("KeyChains/letter-A.3mf".data)
      = ([10], true)
    ∧ ∀ i ∈ (delete_file [(["KeyChains"], 4)]
        (fun _ => [PartRec.mk 10 "letter-A" (some 4), PartRec.mk 11 "letter-A" (some 9),
          PartRec.mk 12 "other" (some 4)])
        ("KeyChains/letter-A.3mf".data)).1,
        ∃ p ∈ [PartRec.mk 10 "letter-A" (some 4), PartRec.mk 11 "letter-A" (some 9),
          PartRec.mk 12 "other" (some 4)],
          p.id = i ∧ p.name = derivedPartName ("KeyChains/letter-A.3mf".data)
          ∧ p.folderId = resolvedFolderId [(["KeyChains"], 4)] ("KeyChains/letter-A.3mf".data) :=
  ⟨by decide,
    (delete_file_exact_match [(["KeyChains"], 4)]
      (fun _ => [PartRec.mk 10 "letter-A" (some 4), PartRec.mk 11 "letter-A" (some 9),
        PartRec.mk 12 "other" (some 4)])
      ("KeyChains/letter-A.3mf".data)).2⟩

/-- Claim C9: an upload whose file size exceeds the 500 MiB ceiling never
reaches the client call — `_upload_file` returns after logging a rejection
(the suspicious-path block or the too-large block), and the item is
dropped. -/
theorem oversize_upload_never_sent (isSafe : Bool) (fileSize : Nat) (clientOk : Bool)
    (h : fileSize > max_file_size) :
    (upload_file_step isSafe fileSize clientOk).clientCalled = false
    ∧ ((upload_file_step isSafe fileSize clientOk).log = UploadLog.blockedSuspicious
      ∨ (upload_file_step isSafe fileSize clientOk).log = UploadLog.tooLarge) := by
  cases isSafe with
  | false => simp [upload_file_step]
  | true => simp [upload_file_step, h]

/-- Witness for C9 at one byte over the ceiling. -/
theorem oversize_upload_never_sent_holds :
    500 * 1024 * 1024 + 1 > max_file_size
    ∧ ((upload_file_step true (500 * 1024 * 1024 + 1) true).clientCalled = false
      ∧ ((upload_file_step true (500 * 1024 * 1024 + 1) true).log = UploadLog.blockedSuspicious
        ∨ (upload_file_step true (500 * 1024 * 1024 + 1) true).log = UploadLog.tooLarge)) :=
  ⟨by decide, oversize_upload_never_sent true (500 * 1024 * 1024 + 1) true (by decide)⟩

end PrintagoWatch
